import Mathlib

set_option maxRecDepth 1000000

/-!
Verification of the rANS entropy coder in `minimal.py`.

The Python source is shallowly embedded below: byte strings become
`List Nat` (each element intended to lie in `[0, 255]`), Python's
arbitrary-precision integers become `Nat`, and fallible code (raising
`ValueError`, `ZeroDivisionError`, `IndexError` or `struct.error`)
returns `Except String _`.  Loops are embedded as recursive functions;
the one loop of the source without an obvious structural measure (the
deficiency-redistribution loop of `generate_frequency_table`) is run on
an explicit fuel argument, and a lemma below (`normLoop_invariant`)
shows that the chosen fuel always reaches the loop's fixpoint, so the
embedding agrees with the source's unbounded `while True` loop.
-/

/-- MODEL_BITS from minimal.py: bits of probability resolution. -/
def MODEL_BITS : Nat := 12

/-- STATE_BITS from minimal.py. -/
def STATE_BITS : Nat := 31

/-- BITS_PER_CHUNK from minimal.py. -/
def BITS_PER_CHUNK : Nat := 8

/-- Value `enc_total = 1 << MODEL_BITS` used in `generate_frequency_table`. -/
def encTotal : Nat := 1 <<< MODEL_BITS

/-- Value `MASK = (1 << MODEL_BITS) - 1` used in `compress`/`decompress`. -/
def MASK : Nat := (1 <<< MODEL_BITS) - 1

/-- Value `L = 1 << (STATE_BITS - 8)` used in `compress`/`decompress`. -/
def L : Nat := 1 <<< (STATE_BITS - 8)

/-- Occurrence counting of `generate_frequency_table` lines 24-26:
`freqs = [0]*256; for b in raw: freqs[b] += 1`. -/
def countFreqs (raw : List Nat) : List Nat :=
  raw.foldl (fun fs b => fs.set b (fs.getD b 0 + 1)) (List.replicate 256 0)

/-- Total increase `added` accumulated by one pass of the redistribution
loop body (lines 35-40): the sum over all symbols with `0 < f < limit`
of `limit - f`. -/
def raiseAmount (limit : Nat) (fs : List Nat) : Nat :=
  (fs.map (fun f => if f ≠ 0 ∧ f < limit then limit - f else 0)).sum

/-- Frequency update of one pass of the redistribution loop body
(lines 37-40): every `f` with `0 < f < limit` is raised to `limit`. -/
def raisePass (limit : Nat) (fs : List Nat) : List Nat :=
  fs.map (fun f => if f ≠ 0 ∧ f < limit then limit else f)

/-- Redistribution loop of `generate_frequency_table` (lines 34-45):
`while True: limit = total // enc_total + 1; raise deficient symbols,
accumulating `added`; stop when `added == 0`, else `total += added`.
The fuel argument only bounds the iteration count; `normLoop_invariant`
proves the fuel chosen in `generate_frequency_table` reaches the
fixpoint, so this equals the source's unbounded loop. -/
def normLoop : Nat → List Nat → Nat → List Nat × Nat
  | 0, fs, total => (fs, total)
  | fuel + 1, fs, total =>
    let limit := total / encTotal + 1
    let added := raiseAmount limit fs
    if added = 0 then (fs, total)
    else normLoop fuel (raisePass limit fs) (total + added)

/-- Embedding of `generate_frequency_table` (lines 22-48).  The final
scaling `f * enc_total // total` raises `ZeroDivisionError` in Python
when `total = 0` (empty corpus), embedded as the error case. -/
def generate_frequency_table (raw : List Nat) : Except String (List Nat) :=
  let freqs := countFreqs raw
  let total := freqs.sum
  let p := normLoop (256 * total + 1) freqs total
  if p.2 = 0 then .error "ZeroDivisionError: integer division or modulo by zero"
  else .ok (p.1.map (fun f => f * encTotal / p.2))

/-- Data of a `StaticModel` instance: the `_freqs` and `_cdf` lists. -/
structure StaticModel where
  freqs : List Nat
  cdfs : List Nat

/-- Exclusive prefix sum of `StaticModel.__init__` lines 57-61:
`cf = 0; for f in freqs: cdf.append(cf); cf += f`. -/
def prefixCdf : List Nat → Nat → List Nat
  | [], _ => []
  | f :: fs, cf => cf :: prefixCdf fs (cf + f)

/-- Embedding of `StaticModel.__init__` (lines 54-63): build the
normalized frequency table and its exclusive prefix-sum CDF. -/
def StaticModel.build (input_data : List Nat) : Except String StaticModel :=
  (generate_frequency_table input_data).map (fun fs => ⟨fs, prefixCdf fs 0⟩)

/-- Accessor `StaticModel.cdf` (line 65-66). -/
def StaticModel.cdf (m : StaticModel) (symbol : Nat) : Nat :=
  m.cdfs.getD symbol 0

/-- Accessor `StaticModel.freq` (line 68-69). -/
def StaticModel.freq (m : StaticModel) (symbol : Nat) : Nat :=
  m.freqs.getD symbol 0

/-- Renormalization loop of `compress` (lines 97-99), run on fuel:
`while X >= H: outbuf.append(X & 0xFF); X >>= 8`.  Every call site
passes fuel `X + 1`, which suffices because `X` strictly decreases
(`H ≥ 1` whenever the loop runs: the caller has checked `f ≠ 0`). -/
def encRenormGo : Nat → Nat → Nat → List Nat × Nat
  | 0, X, _ => ([], X)
  | fuel + 1, X, H =>
    if X < H then ([], X)
    else
      let r := encRenormGo fuel (X >>> 8) H
      ((X &&& 255) :: r.1, r.2)

/-- Renormalization loop of `compress` with its sufficient fuel. -/
def encRenorm (X H : Nat) : List Nat × Nat :=
  encRenormGo (X + 1) X H

/-- Body of the per-symbol loop of `compress` (lines 88-102): check the
zero-frequency error, renormalize downward, then apply the rANS encode
transform `X = ((X // f) << MODEL_BITS) + (X % f) + cdf[b]`.
Returns the emitted renormalization bytes (in append order) and the new
state. -/
def encodeStep (m : StaticModel) (X : Nat) (b : Nat) :
    Except String (List Nat × Nat) :=
  let f := m.freq b
  if f = 0 then .error "Cannot encode symbols with zero frequency"
  else
    let H := ((L >>> MODEL_BITS) <<< 8) * f
    let r := encRenorm X H
    .ok (r.1, ((r.2 / f) <<< MODEL_BITS) + (r.2 % f) + m.cdf b)

/-- Per-symbol loop of `compress` (lines 88-102) over the whole input,
threading the state and concatenating emitted bytes in append order.
Returns the full renormalization output and the final state. -/
def compressCore (m : StaticModel) : List Nat → Nat → Except String (List Nat × Nat)
  | [], X => .ok ([], X)
  | b :: rest, X =>
    match encodeStep m X b with
    | .error e => .error e
    | .ok (em, X1) =>
      match compressCore m rest X1 with
      | .error e => .error e
      | .ok (em2, Xf) => .ok (em ++ em2, Xf)

/-- Little-endian 4-byte serialization `struct.pack("<I", X)`. -/
def le4Bytes (X : Nat) : List Nat :=
  [X % 256, X / 256 % 256, X / 65536 % 256, X / 16777216 % 256]

/-- Embedding of `compress` (lines 72-110): start from `X = L`, run the
per-symbol loop, then append the final state as 4 little-endian bytes.
`struct.pack("<I", X)` raises `struct.error` when `X ≥ 2^32`. -/
def compress (m : StaticModel) (raw : List Nat) : Except String (List Nat) :=
  match compressCore m raw L with
  | .error e => .error e
  | .ok (outbuf, X) =>
    if X < 4294967296 then .ok (outbuf ++ le4Bytes X)
    else .error "struct.error: argument out of range"

/-- Instrumented variant of `compressCore` that records the state
register at every per-symbol step boundary: the state before each
symbol is consumed and the final state.  It performs exactly the steps
of `compress` and is used only to state the state-range invariant. -/
def compressStates (m : StaticModel) : List Nat → Nat → Except String (List Nat)
  | [], X => .ok [X]
  | b :: rest, X =>
    match encodeStep m X b with
    | .error e => .error e
    | .ok (_, X1) =>
      match compressStates m rest X1 with
      | .error e => .error e
      | .ok l => .ok (X :: l)

/-- Big-endian read of 4 bytes, as in `struct.unpack(">I", ...)`. -/
def be4 (a b c d : Nat) : Nat :=
  ((a * 256 + b) * 256 + c) * 256 + d

/-- Prelude of `decompress` (lines 113-119): reverse the compressed
buffer and read its first 4 bytes as a big-endian unsigned integer,
recovering the initial decoder state; the remaining reversed bytes form
the stream the renormalization loop pulls from.  `struct.unpack`
raises `struct.error` when fewer than 4 bytes are available. -/
def decodeInit (comp : List Nat) : Except String (Nat × List Nat) :=
  match comp.reverse with
  | a :: b :: c :: d :: rest => .ok (be4 a b c d, rest)
  | _ => .error "struct.error: unpack requires a buffer of 4 bytes"

/-- Inner `while cursor < up` loop of the symbol-table build
(lines 128-130), run on its iteration count `up - cursor`:
`symbol_table[cursor] = s - 1; cursor += 1`. -/
def fillRunGo : Nat → List Nat → Nat → Nat → List Nat × Nat
  | 0, tbl, cursor, _ => (tbl, cursor)
  | n + 1, tbl, cursor, v => fillRunGo n (tbl.set cursor v) (cursor + 1) v

/-- Inner `while cursor < up` loop of the symbol-table build; executes
exactly `up - cursor` iterations (zero when `cursor ≥ up`). -/
def fillRun (tbl : List Nat) (v cursor up : Nat) : List Nat × Nat :=
  fillRunGo (up - cursor) tbl cursor v

/-- Symbol-table build of `decompress` (lines 124-130):
`symbol_table = [0] * (MASK + 1)`, then for each `s` in `0..255`, with
`up = cdf(s)`, fill slots while `cursor < up` with `s - 1`. -/
def buildTable (m : StaticModel) : List Nat :=
  ((List.range 256).foldl
    (fun acc s => fillRun acc.1 (s - 1) acc.2 (m.cdf s))
    (List.replicate (MASK + 1) 0, 0)).1

/-- Upward renormalization loop of `decompress` (lines 143-144):
`while X < L: X = (X << 8) | comp.read(1)[0]`.  Reading from an
exhausted stream raises `IndexError` in Python. -/
def decRenorm : List Nat → Nat → Except String (Nat × List Nat)
  | stream, X =>
    if X < L then
      match stream with
      | [] => .error "IndexError: index out of range"
      | b :: rest => decRenorm rest ((X <<< 8) ||| b)
    else .ok (X, stream)

/-- Body of the per-symbol loop of `decompress` (lines 135-145): look
the symbol up in the table, check the zero-frequency error, apply the
inverse transform, renormalize upward.  Python computes
`freq(s) * (X >> MODEL_BITS) + (X & MASK) - cdf(s)` with signed
integers; were it negative, the renormalization loop below would pull
bytes forever and exhaust the reversed stream, raising `IndexError`
within the same step, so the embedding raises at the subtraction
instead (the pass aborts identically; this branch is unreachable for
models built by `StaticModel.build`). -/
def decodeStep (m : StaticModel) (tbl : List Nat) (X : Nat) (stream : List Nat) :
    Except String (Nat × Nat × List Nat) :=
  let s := tbl.getD (X &&& MASK) 0
  if m.freq s = 0 then
    .error "Decoding/Symbol Table Error, symbol with 0 frequency found."
  else
    let t := m.freq s * (X >>> MODEL_BITS) + (X &&& MASK)
    if t < m.cdf s then .error "IndexError: index out of range"
    else
      match decRenorm stream (t - m.cdf s) with
      | .error e => .error e
      | .ok (X1, s1) => .ok (s, X1, s1)

/-- Per-symbol loop of `decompress` (lines 135-145) run `length` times,
collecting the decoded symbols in append order. -/
def decodeLoop (m : StaticModel) (tbl : List Nat) :
    Nat → Nat → List Nat → Except String (List Nat × Nat × List Nat)
  | 0, X, stream => .ok ([], X, stream)
  | n + 1, X, stream =>
    match decodeStep m tbl X stream with
    | .error e => .error e
    | .ok (s, X1, s1) =>
      match decodeLoop m tbl n X1 s1 with
      | .error e => .error e
      | .ok (out, Xf, sf) => .ok (s :: out, Xf, sf)

/-- Embedding of `decompress` (lines 113-147): recover the initial
state from the reversed buffer, build the symbol table, run the
per-symbol loop `length` times, and reverse the output. -/
def decompress (m : StaticModel) (comp : List Nat) (length : Nat) :
    Except String (List Nat) :=
  match decodeInit comp with
  | .error e => .error e
  | .ok (X, stream) =>
    match decodeLoop m (buildTable m) length X stream with
    | .error e => .error e
    | .ok (out, _, _) => .ok out.reverse

/-- Round trip of `main` (lines 161-163): build the model from the
data, compress, then decompress with the same model and the original
length. -/
def roundTrip (raw : List Nat) : Except String (List Nat) :=
  match StaticModel.build raw with
  | .error e => .error e
  | .ok m =>
    match compress m raw with
    | .error e => .error e
    | .ok c => decompress m c raw.length

/-- Well-formedness facts used by the encoder/decoder range lemmas;
`goodModel_of_build` shows every model built by `StaticModel.build`
satisfies them. -/
def goodModel (m : StaticModel) : Prop :=
  m.freqs.length = 256 ∧ ∀ b < 256, m.freq b + m.cdf b ≤ encTotal

instance (m : StaticModel) : Decidable (goodModel m) := by
  unfold goodModel; infer_instance

/-! ### Generic list and arithmetic helper lemmas -/

lemma getD_set_self (l : List Nat) (i v : Nat) (h : i < l.length) :
    (l.set i v).getD i 0 = v := by
  rw [List.getD_eq_getElem _ 0 (by simpa using h)]
  exact List.getElem_set_self _

lemma getD_set_ne (l : List Nat) (i j v : Nat) (h : i ≠ j) :
    (l.set i v).getD j 0 = l.getD j 0 := by
  by_cases hj : j < l.length
  · rw [List.getD_eq_getElem _ 0 (by simpa using hj), List.getD_eq_getElem _ 0 hj]
    exact List.getElem_set_ne h _
  · rw [List.getD_eq_default _ 0 (by simpa using Nat.le_of_not_lt hj),
      List.getD_eq_default _ 0 (Nat.le_of_not_lt hj)]

lemma getD_map_lt (f : Nat → Nat) (l : List Nat) (i : Nat) (h : i < l.length) :
    (l.map f).getD i 0 = f (l.getD i 0) := by
  rw [List.getD_eq_getElem _ 0 (by simpa using h), List.getD_eq_getElem _ 0 h]
  exact List.getElem_map f

lemma getD_mem_of_lt (l : List Nat) (i : Nat) (h : i < l.length) :
    l.getD i 0 ∈ l := by
  rw [List.getD_eq_getElem _ 0 h]
  exact List.getElem_mem h

lemma getD_pos_lt_length (l : List Nat) (i : Nat) (h : 0 < l.getD i 0) :
    i < l.length := by
  by_contra hc
  rw [List.getD_eq_default _ 0 (Nat.le_of_not_lt hc)] at h
  omega

lemma sum_le_mul_of_forall_le (l : List Nat) (M : Nat) (h : ∀ x ∈ l, x ≤ M) :
    l.sum ≤ l.length * M := by
  induction l with
  | nil => simp
  | cons a t ih =>
    simp only [List.sum_cons, List.length_cons]
    have h1 : a ≤ M := h a (by simp)
    have h2 : t.sum ≤ t.length * M := ih (fun x hx => h x (by simp [hx]))
    calc a + t.sum ≤ M + t.length * M := Nat.add_le_add h1 h2
      _ = (t.length + 1) * M := by ring

lemma add_div_le_div (x y t : Nat) : x / t + y / t ≤ (x + y) / t := by
  rcases Nat.eq_zero_or_pos t with h | h
  · simp [h]
  · rw [Nat.le_div_iff_mul_le h, Nat.add_mul]
    exact Nat.add_le_add (Nat.div_mul_le_self x t) (Nat.div_mul_le_self y t)

lemma sum_map_div_le (l : List Nat) (c t : Nat) :
    (l.map (fun f => f * c / t)).sum ≤ l.sum * c / t := by
  induction l with
  | nil => simp
  | cons a tl ih =>
    simp only [List.map_cons, List.sum_cons]
    calc a * c / t + (tl.map (fun f => f * c / t)).sum
        ≤ a * c / t + tl.sum * c / t := Nat.add_le_add_left ih _
      _ ≤ (a * c + tl.sum * c) / t := add_div_le_div ..
      _ = (a + tl.sum) * c / t := by rw [Nat.add_mul]

/-! ### Properties of the redistribution loop -/

lemma raisePass_length (limit : Nat) (fs : List Nat) :
    (raisePass limit fs).length = fs.length := by
  simp [raisePass]

lemma sum_raisePass (limit : Nat) (fs : List Nat) :
    (raisePass limit fs).sum = fs.sum + raiseAmount limit fs := by
  induction fs with
  | nil => simp [raisePass, raiseAmount]
  | cons a t ih =>
    simp only [raisePass, raiseAmount, List.map_cons, List.sum_cons] at ih ⊢
    by_cases hc : a ≠ 0 ∧ a < limit
    · obtain ⟨h1, h2⟩ := hc
      rw [if_pos ⟨h1, h2⟩, if_pos ⟨h1, h2⟩]
      omega
    · rw [if_neg hc, if_neg hc]
      omega

lemma raiseAmount_eq_zero_iff (limit : Nat) (fs : List Nat) :
    raiseAmount limit fs = 0 ↔ ∀ f ∈ fs, f = 0 ∨ limit ≤ f := by
  unfold raiseAmount
  rw [List.sum_eq_zero_iff]
  constructor
  · intro h f hf
    have hz := h _ (List.mem_map_of_mem _ hf)
    by_cases hc : f ≠ 0 ∧ f < limit
    · rw [if_pos hc] at hz
      omega
    · omega
  · intro h x hx
    obtain ⟨f, hf, rfl⟩ := List.mem_map.mp hx
    rcases h f hf with h1 | h1
    · simp [h1]
    · have hc : ¬(f ≠ 0 ∧ f < limit) := by omega
      rw [if_neg hc]

lemma raisePass_forall_le (limit M : Nat) (fs : List Nat) (hl : limit ≤ M)
    (h : ∀ f ∈ fs, f ≤ M) : ∀ f ∈ raisePass limit fs, f ≤ M := by
  intro f hf
  obtain ⟨g, hg, rfl⟩ := List.mem_map.mp hf
  by_cases hc : g ≠ 0 ∧ g < limit
  · rw [if_pos hc]; exact hl
  · rw [if_neg hc]; exact h g hg

lemma raisePass_getD_pos (limit : Nat) (fs : List Nat) (v : Nat)
    (h : 0 < fs.getD v 0) : 0 < (raisePass limit fs).getD v 0 := by
  have hv : v < fs.length := getD_pos_lt_length fs v h
  rw [raisePass, getD_map_lt _ _ _ hv]
  by_cases hc : fs.getD v 0 ≠ 0 ∧ fs.getD v 0 < limit
  · rw [if_pos hc]; omega
  · rw [if_neg hc]; exact h

lemma encTotal_eq : encTotal = 4096 := by decide

/-- Invariants of the redistribution loop, and sufficiency of the fuel:
if all frequencies are bounded by `M ≥ 1` and the list has 256 entries,
then the fuel `256 * M + 1 - t` reaches the loop's fixpoint, because
the total (a sum of 256 entries each at most `M`) strictly increases on
every pass that is not the last. -/
lemma normLoop_invariant (M : Nat) (hM : 1 ≤ M) (fuel : Nat) :
    ∀ (fs : List Nat) (t : Nat),
      fs.length = 256 → t = fs.sum → (∀ f ∈ fs, f ≤ M) →
      (normLoop fuel fs t).1.length = 256
        ∧ (normLoop fuel fs t).2 = (normLoop fuel fs t).1.sum
        ∧ (∀ f ∈ (normLoop fuel fs t).1, f ≤ M)
        ∧ t ≤ (normLoop fuel fs t).2
        ∧ (∀ v, 0 < fs.getD v 0 → 0 < (normLoop fuel fs t).1.getD v 0)
        ∧ (256 * M + 1 ≤ fuel + t →
            raiseAmount ((normLoop fuel fs t).2 / encTotal + 1) (normLoop fuel fs t).1 = 0) := by
  induction fuel with
  | zero =>
    intro fs t hlen hsum hle
    simp only [normLoop]
    refine ⟨hlen, hsum, hle, Nat.le_refl t, fun v hv => hv, fun hfuel => absurd hfuel ?_⟩
    have hb := sum_le_mul_of_forall_le fs M hle
    rw [hlen] at hb
    omega
  | succ fuel ih =>
    intro fs t hlen hsum hle
    by_cases hadd : raiseAmount (t / encTotal + 1) fs = 0
    · have hstep : normLoop (fuel + 1) fs t = (fs, t) := by
        simp only [normLoop, hadd, if_pos]
      rw [hstep]
      exact ⟨hlen, hsum, hle, Nat.le_refl t, fun v hv => hv, fun _ => hadd⟩
    · have hstep : normLoop (fuel + 1) fs t
          = normLoop fuel (raisePass (t / encTotal + 1) fs)
              (t + raiseAmount (t / encTotal + 1) fs) := by
        simp only [normLoop, hadd, if_neg, if_false]
      have hlim : t / encTotal + 1 ≤ M := by
        have hb := sum_le_mul_of_forall_le fs M hle
        rw [hlen] at hb
        rw [encTotal_eq]
        omega
      have h1 : (raisePass (t / encTotal + 1) fs).length = 256 := by
        rw [raisePass_length]; exact hlen
      have h2 : t + raiseAmount (t / encTotal + 1) fs
          = (raisePass (t / encTotal + 1) fs).sum := by
        rw [sum_raisePass]; omega
      have h3 := raisePass_forall_le (t / encTotal + 1) M fs hlim hle
      obtain ⟨c1, c2, c3, c4, c5, c6⟩ := ih _ _ h1 h2 h3
      rw [hstep]
      refine ⟨c1, c2, c3, ?_, ?_, ?_⟩
      · omega
      · intro v hv
        exact c5 v (raisePass_getD_pos _ fs v hv)
      · intro hfuel
        apply c6
        omega

/-! ### Properties of the frequency counting and the built model -/

lemma foldl_count_length (l : List Nat) :
    ∀ fs : List Nat,
      (l.foldl (fun fs b => fs.set b (fs.getD b 0 + 1)) fs).length = fs.length := by
  induction l with
  | nil => intro fs; rfl
  | cons b t ih =>
    intro fs
    rw [List.foldl_cons, ih]
    exact List.length_set ..

lemma countFreqs_length (raw : List Nat) : (countFreqs raw).length = 256 := by
  rw [countFreqs, foldl_count_length]
  exact List.length_replicate ..

lemma count_step_getD_le (fs : List Nat) (b v : Nat) :
    fs.getD v 0 ≤ (fs.set b (fs.getD b 0 + 1)).getD v 0 := by
  by_cases hb : b < fs.length
  · by_cases hv : v = b
    · subst hv
      rw [getD_set_self fs v _ hb]
      omega
    · rw [getD_set_ne fs b v _ (fun h => hv h.symm)]
  · rw [List.set_eq_of_length_le (Nat.le_of_not_lt hb)]

lemma foldl_count_getD_le (l : List Nat) :
    ∀ (fs : List Nat) (v : Nat),
      fs.getD v 0 ≤ (l.foldl (fun fs b => fs.set b (fs.getD b 0 + 1)) fs).getD v 0 := by
  induction l with
  | nil => intro fs v; exact Nat.le_refl _
  | cons b t ih =>
    intro fs v
    rw [List.foldl_cons]
    exact Nat.le_trans (count_step_getD_le fs b v) (ih _ v)

lemma foldl_count_getD_pos (l : List Nat) :
    ∀ (fs : List Nat) (v : Nat), v ∈ l → v < fs.length →
      0 < (l.foldl (fun fs b => fs.set b (fs.getD b 0 + 1)) fs).getD v 0 := by
  induction l with
  | nil => intro fs v hv; exact absurd hv (List.not_mem_nil v)
  | cons b t ih =>
    intro fs v hv hlen
    rw [List.foldl_cons]
    rcases List.mem_cons.mp hv with rfl | hvt
    · have h1 : 0 < (fs.set v (fs.getD v 0 + 1)).getD v 0 := by
        rw [getD_set_self fs v _ hlen]
        omega
      exact Nat.lt_of_lt_of_le h1 (foldl_count_getD_le t _ v)
    · apply ih _ v hvt
      rw [List.length_set]
      exact hlen

lemma countFreqs_getD_pos (raw : List Nat) (v : Nat) (hv : v ∈ raw) (h256 : v < 256) :
    0 < (countFreqs raw).getD v 0 := by
  rw [countFreqs]
  apply foldl_count_getD_pos raw _ v hv
  rw [List.length_replicate]
  exact h256

/-- Consequences of a successful `generate_frequency_table` call: the
result has 256 entries, sums to at most `2^MODEL_BITS`, and every
symbol counted at least once in the corpus keeps a positive normalized
frequency. -/
lemma generate_facts (raw : List Nat) (fs2 : List Nat)
    (h : generate_frequency_table raw = .ok fs2) :
    fs2.length = 256 ∧ fs2.sum ≤ encTotal
      ∧ ∀ v, 0 < (countFreqs raw).getD v 0 → 0 < fs2.getD v 0 := by
  rw [generate_frequency_table] at h
  set fs0 := countFreqs raw with hfs0
  set t0 := fs0.sum with ht0
  set p := normLoop (256 * t0 + 1) fs0 t0 with hp
  by_cases hz : p.2 = 0
  · rw [if_pos hz] at h
    exact absurd h (by simp)
  · rw [if_neg hz] at h
    have hfs2 : fs2 = p.1.map (fun f => f * encTotal / p.2) := by
      cases h
      rfl
    have hlen0 : fs0.length = 256 := countFreqs_length raw
    rcases Nat.eq_zero_or_pos t0 with hz0 | hpos0
    · exfalso
      have hall : ∀ f ∈ fs0, f = 0 := by
        rw [← List.sum_eq_zero_iff, ← ht0, hz0]
      have hra : raiseAmount (t0 / encTotal + 1) fs0 = 0 := by
        rw [raiseAmount_eq_zero_iff]
        intro f hf
        exact Or.inl (hall f hf)
      have : p = (fs0, t0) := by
        rw [hp, hz0]
        show normLoop (256 * 0 + 1) fs0 0 = (fs0, 0)
        have hra0 : raiseAmount (0 / encTotal + 1) fs0 = 0 := by
          rw [raiseAmount_eq_zero_iff]
          intro f hf
          exact Or.inl (hall f hf)
        simp only [normLoop, hra0, if_pos]
      rw [this, hz0] at hz
      exact hz rfl
    · have hboundall : ∀ f ∈ fs0, f ≤ t0 := by
        intro f hf
        rw [ht0]
        exact List.single_le_sum (fun y _ => Nat.zero_le y) f hf
      obtain ⟨c1, c2, c3, c4, c5, c6⟩ :=
        normLoop_invariant t0 hpos0 (256 * t0 + 1) fs0 t0 hlen0 rfl hboundall
      have hfix := c6 (by omega)
      have hp2pos : 0 < p.2 := Nat.pos_of_ne_zero hz
      refine ⟨?_, ?_, ?_⟩
      · rw [hfs2, List.length_map]
        exact c1
      · rw [hfs2]
        calc (p.1.map (fun f => f * encTotal / p.2)).sum
            ≤ p.1.sum * encTotal / p.2 := sum_map_div_le ..
          _ = p.2 * encTotal / p.2 := by rw [← c2]
          _ = encTotal := Nat.mul_div_cancel_left encTotal hp2pos
      · intro v hv
        have hv1 : 0 < p.1.getD v 0 := c5 v hv
        have hvlen : v < p.1.length := getD_pos_lt_length _ v hv1
        have hmem : p.1.getD v 0 ∈ p.1 := getD_mem_of_lt _ v hvlen
        have hge : p.2 / encTotal + 1 ≤ p.1.getD v 0 := by
          rcases (raiseAmount_eq_zero_iff _ _).mp hfix _ hmem with h0 | h0
          · omega
          · exact h0
        rw [hfs2, getD_map_lt _ _ v hvlen]
        apply Nat.div_pos _ hp2pos
        rw [encTotal_eq] at hge ⊢
        omega

/-! ### Properties of the CDF construction -/

lemma prefixCdf_length (fs : List Nat) : ∀ c, (prefixCdf fs c).length = fs.length := by
  induction fs with
  | nil => intro c; rfl
  | cons f t ih =>
    intro c
    simp only [prefixCdf, List.length_cons]
    rw [ih]

lemma prefixCdf_getD_zero (fs : List Nat) (c : Nat) (h : fs ≠ []) :
    (prefixCdf fs c).getD 0 0 = c := by
  cases fs with
  | nil => exact absurd rfl h
  | cons f t => rfl

lemma prefixCdf_getD_succ (fs : List Nat) :
    ∀ (c i : Nat), i + 1 < fs.length →
      (prefixCdf fs c).getD (i + 1) 0
        = (prefixCdf fs c).getD i 0 + fs.getD i 0 := by
  induction fs with
  | nil => intro c i h; simp at h
  | cons f t ih =>
    intro c i h
    cases i with
    | zero =>
      have ht : t ≠ [] := by
        intro hnil
        rw [hnil] at h
        simp at h
      show (prefixCdf t (c + f)).getD 0 0 = c + f
      exact prefixCdf_getD_zero t (c + f) ht
    | succ j =>
      show (prefixCdf t (c + f)).getD (j + 1) 0
        = (prefixCdf t (c + f)).getD j 0 + t.getD j 0
      exact ih (c + f) j (by simpa using h)

lemma prefixCdf_mono (fs : List Nat) :
    ∀ (c i j : Nat), i ≤ j → j < fs.length →
      (prefixCdf fs c).getD i 0 ≤ (prefixCdf fs c).getD j 0 := by
  intro c i j hij hj
  induction j with
  | zero =>
    have : i = 0 := Nat.le_zero.mp hij
    rw [this]
  | succ k ih =>
    rcases Nat.lt_or_ge i (k + 1) with h | h
    · have h1 := ih (Nat.le_of_lt_succ h) (Nat.lt_of_succ_lt hj)
      have h2 := prefixCdf_getD_succ fs c k hj
      omega
    · have : i = k + 1 := Nat.le_antisymm hij h
      rw [this]

lemma prefixCdf_add_le (fs : List Nat) :
    ∀ (c b : Nat), (prefixCdf fs c).getD b 0 + fs.getD b 0 ≤ c + fs.sum := by
  induction fs with
  | nil =>
    intro c b
    simp [prefixCdf]
  | cons f t ih =>
    intro c b
    cases b with
    | zero =>
      show c + f ≤ c + (f + t.sum)
      omega
    | succ j =>
      show (prefixCdf t (c + f)).getD j 0 + t.getD j 0 ≤ c + (f + t.sum)
      have := ih (c + f) j
      omega

/-- Inversion of a successful `StaticModel.build`. -/
lemma build_ok_parts (raw : List Nat) (m : StaticModel)
    (h : StaticModel.build raw = .ok m) :
    generate_frequency_table raw = .ok m.freqs ∧ m.cdfs = prefixCdf m.freqs 0 := by
  rw [StaticModel.build] at h
  cases hg : generate_frequency_table raw with
  | error e =>
    rw [hg] at h
    exact absurd h (by simp [Except.map])
  | ok fs =>
    rw [hg] at h
    simp only [Except.map] at h
    cases h
    exact ⟨rfl, rfl⟩

/-- Every model built by `StaticModel.build` is well formed. -/
lemma goodModel_of_build (raw : List Nat) (m : StaticModel)
    (h : StaticModel.build raw = .ok m) : goodModel m := by
  obtain ⟨hg, hcdf⟩ := build_ok_parts raw m h
  obtain ⟨hlen, hsum, _⟩ := generate_facts raw m.freqs hg
  refine ⟨hlen, ?_⟩
  intro b _
  show m.freqs.getD b 0 + m.cdfs.getD b 0 ≤ encTotal
  rw [hcdf]
  have h1 := prefixCdf_add_le m.freqs 0 b
  omega

/-! ### Numeric values of the shift expressions -/

lemma L_eq : L = 8388608 := by decide

lemma MASK_eq : MASK = 4095 := by decide

lemma H_factor_eq : (L >>> MODEL_BITS) <<< 8 = 524288 := by decide

lemma shiftRight8_eq (X : Nat) : X >>> 8 = X / 256 := by
  rw [Nat.shiftRight_eq_div_pow]

lemma shiftRight12_eq (X : Nat) : X >>> MODEL_BITS = X / 4096 := by
  show X >>> 12 = X / 4096
  rw [Nat.shiftRight_eq_div_pow]

lemma shiftLeft12_eq (X : Nat) : X <<< MODEL_BITS = X * 4096 := by
  show X <<< 12 = X * 4096
  rw [Nat.shiftLeft_eq]

/-! ### Encoder range invariant -/

lemma encRenormGo_lt (H : Nat) (hH : 0 < H) :
    ∀ (fuel X : Nat), X < fuel → (encRenormGo fuel X H).2 < H := by
  intro fuel
  induction fuel with
  | zero => intro X h; omega
  | succ fuel ih =>
    intro X h
    simp only [encRenormGo]
    by_cases hx : X < H
    · rw [if_pos hx]
      exact hx
    · rw [if_neg hx]
      apply ih
      have h8 : X >>> 8 = X / 256 := shiftRight8_eq X
      omega

lemma encRenormGo_ge (H : Nat) :
    ∀ (fuel X : Nat), H / 256 ≤ X → H / 256 ≤ (encRenormGo fuel X H).2 := by
  intro fuel
  induction fuel with
  | zero => intro X h; exact h
  | succ fuel ih =>
    intro X h
    simp only [encRenormGo]
    by_cases hx : X < H
    · rw [if_pos hx]
      exact h
    · rw [if_neg hx]
      apply ih
      have h8 : X >>> 8 = X / 256 := shiftRight8_eq X
      have : H / 256 ≤ X / 256 := Nat.div_le_div_right (Nat.le_of_not_lt hx)
      omega

lemma freq_ne_zero_lt_256 (m : StaticModel) (hm : goodModel m) (b : Nat)
    (hf : m.freq b ≠ 0) : b < 256 := by
  by_contra hb
  apply hf
  show m.freqs.getD b 0 = 0
  rw [List.getD_eq_default]
  rw [hm.1]
  exact Nat.le_of_not_lt hb

/-- One encode step maps a state in `[L, 256 * L)` to a state in
`[L, 256 * L)`, for any well-formed model. -/
lemma encodeStep_range (m : StaticModel) (hm : goodModel m) (X b : Nat)
    (hX1 : L ≤ X) (hX2 : X < 256 * L) (em : List Nat) (X1 : Nat)
    (hstep : encodeStep m X b = .ok (em, X1)) :
    L ≤ X1 ∧ X1 < 256 * L := by
  simp only [encodeStep] at hstep
  by_cases hf : m.freq b = 0
  · rw [if_pos hf] at hstep
    exact absurd hstep (by simp)
  · rw [if_neg hf] at hstep
    simp only [Except.ok.injEq, Prod.mk.injEq] at hstep
    obtain ⟨-, hX1eq⟩ := hstep
    have hfpos : 0 < m.freq b := Nat.pos_of_ne_zero hf
    have hb256 : b < 256 := freq_ne_zero_lt_256 m hm b hf
    have hfc : m.freq b + m.cdf b ≤ 4096 := by
      have := hm.2 b hb256
      rw [encTotal_eq] at this
      exact this
    rw [H_factor_eq] at hX1eq
    have hHpos : 0 < 524288 * m.freq b := by positivity
    have hlt : (encRenorm X (524288 * m.freq b)).2 < 524288 * m.freq b := by
      rw [encRenorm]
      exact encRenormGo_lt _ hHpos (X + 1) X (Nat.lt_succ_self X)
    have hdiv : 524288 * m.freq b / 256 = 2048 * m.freq b := by
      have h1 : 524288 * m.freq b = 2048 * m.freq b * 256 := by ring
      rw [h1, Nat.mul_div_cancel _ (by norm_num)]
    have hge : 2048 * m.freq b ≤ (encRenorm X (524288 * m.freq b)).2 := by
      rw [encRenorm, ← hdiv]
      apply encRenormGo_ge
      rw [hdiv]
      have h1 : 2048 * m.freq b ≤ 2048 * 4096 := by
        apply Nat.mul_le_mul_left
        omega
      have hL : L = 8388608 := L_eq
      omega
    set X2 := (encRenorm X (524288 * m.freq b)).2 with hX2def
    rw [shiftLeft12_eq] at hX1eq
    have hqlo : 2048 ≤ X2 / m.freq b := by
      rw [Nat.le_div_iff_mul_le hfpos]
      omega
    have hqhi : X2 / m.freq b < 524288 := by
      rw [Nat.div_lt_iff_lt_mul hfpos]
      omega
    have hrlt : X2 % m.freq b < m.freq b := Nat.mod_lt X2 hfpos
    have hL : L = 8388608 := L_eq
    have hq4096 : X2 / m.freq b * 4096 ≤ 524287 * 4096 := by
      apply Nat.mul_le_mul_right
      omega
    have hq4096lo : 2048 * 4096 ≤ X2 / m.freq b * 4096 := by
      apply Nat.mul_le_mul_right
      omega
    omega

lemma compressCore_range (m : StaticModel) (hm : goodModel m) :
    ∀ (D : List Nat) (X : Nat), L ≤ X → X < 256 * L →
      ∀ em Xf, compressCore m D X = .ok (em, Xf) → L ≤ Xf ∧ Xf < 256 * L := by
  intro D
  induction D with
  | nil =>
    intro X h1 h2 em Xf h
    simp only [compressCore, Except.ok.injEq, Prod.mk.injEq] at h
    obtain ⟨-, rfl⟩ := h
    exact ⟨h1, h2⟩
  | cons b rest ih =>
    intro X h1 h2 em Xf h
    simp only [compressCore] at h
    cases hstep : encodeStep m X b with
    | error e =>
      rw [hstep] at h
      exact absurd h (by simp)
    | ok p =>
      obtain ⟨em1, X1⟩ := p
      rw [hstep] at h
      dsimp only at h
      have hr := encodeStep_range m hm X b h1 h2 em1 X1 hstep
      cases hcore : compressCore m rest X1 with
      | error e =>
        rw [hcore] at h
        exact absurd h (by simp)
      | ok q =>
        obtain ⟨em2, Xf2⟩ := q
        rw [hcore] at h
        simp only [Except.ok.injEq, Prod.mk.injEq] at h
        obtain ⟨-, rfl⟩ := h
        exact ih X1 hr.1 hr.2 em2 Xf2 hcore

lemma compressStates_range (m : StaticModel) (hm : goodModel m) :
    ∀ (D : List Nat) (X : Nat), L ≤ X → X < 256 * L →
      ∀ states, compressStates m D X = .ok states →
        ∀ x ∈ states, L ≤ x ∧ x < 256 * L := by
  intro D
  induction D with
  | nil =>
    intro X h1 h2 states h x hx
    simp only [compressStates, Except.ok.injEq] at h
    rw [← h] at hx
    rcases List.mem_singleton.mp hx with rfl
    exact ⟨h1, h2⟩
  | cons b rest ih =>
    intro X h1 h2 states h x hx
    simp only [compressStates] at h
    cases hstep : encodeStep m X b with
    | error e =>
      rw [hstep] at h
      exact absurd h (by simp)
    | ok p =>
      obtain ⟨em1, X1⟩ := p
      rw [hstep] at h
      dsimp only at h
      have hr := encodeStep_range m hm X b h1 h2 em1 X1 hstep
      cases hrest : compressStates m rest X1 with
      | error e =>
        rw [hrest] at h
        exact absurd h (by simp)
      | ok l =>
        rw [hrest] at h
        simp only [Except.ok.injEq] at h
        rw [← h] at hx
        rcases List.mem_cons.mp hx with rfl | hxl
        · exact ⟨h1, h2⟩
        · exact ih X1 hr.1 hr.2 l hrest x hxl

lemma compressCore_isOk (m : StaticModel) :
    ∀ (D : List Nat) (X : Nat), (∀ b ∈ D, m.freq b ≠ 0) →
      ∃ em Xf, compressCore m D X = .ok (em, Xf) := by
  intro D
  induction D with
  | nil => intro X _; exact ⟨[], X, rfl⟩
  | cons b rest ih =>
    intro X hall
    have hb : m.freq b ≠ 0 := hall b (by simp)
    obtain ⟨em2, Xf, hcore⟩ := ih
      ((((encRenorm X (((L >>> MODEL_BITS) <<< 8) * m.freq b)).2 / m.freq b) <<< MODEL_BITS)
        + (encRenorm X (((L >>> MODEL_BITS) <<< 8) * m.freq b)).2 % m.freq b + m.cdf b)
      (fun x hx => hall x (by simp [hx]))
    refine ⟨(encRenorm X (((L >>> MODEL_BITS) <<< 8) * m.freq b)).1 ++ em2, Xf, ?_⟩
    simp only [compressCore, encodeStep, if_neg hb]
    rw [hcore]

lemma compressCore_err (m : StaticModel) :
    ∀ (D : List Nat) (X : Nat), (∃ b ∈ D, m.freq b = 0) →
      compressCore m D X = .error "Cannot encode symbols with zero frequency" := by
  intro D
  induction D with
  | nil =>
    intro X hex
    obtain ⟨b, hb, -⟩ := hex
    exact absurd hb (List.not_mem_nil b)
  | cons b rest ih =>
    intro X hex
    by_cases hb : m.freq b = 0
    · simp only [compressCore, encodeStep, if_pos hb]
    · obtain ⟨c, hc, hcz⟩ := hex
      have hcrest : c ∈ rest := by
        rcases List.mem_cons.mp hc with rfl | h
        · exact absurd hcz hb
        · exact h
      simp only [compressCore, encodeStep, if_neg hb]
      rw [ih _ ⟨c, hcrest, hcz⟩]

/-! ### Wire-format lemmas -/

lemma decodeInit_append (out : List Nat) (X : Nat) (hX : X < 4294967296) :
    decodeInit (out ++ le4Bytes X) = .ok (X, out.reverse) := by
  have hrev : (out ++ le4Bytes X).reverse
      = X / 16777216 % 256 :: X / 65536 % 256 :: X / 256 % 256 :: X % 256 :: out.reverse := by
    rw [le4Bytes, List.reverse_append]
    rfl
  rw [decodeInit, hrev]
  simp only [be4, Except.ok.injEq, Prod.mk.injEq]
  exact ⟨by omega, trivial⟩

lemma compress_ok_parts (m : StaticModel) (D out : List Nat)
    (h : compress m D = .ok out) :
    ∃ em Xf, compressCore m D L = .ok (em, Xf) ∧ Xf < 4294967296
      ∧ out = em ++ le4Bytes Xf := by
  rw [compress] at h
  cases hcore : compressCore m D L with
  | error e =>
    rw [hcore] at h
    exact absurd h (by simp)
  | ok p =>
    obtain ⟨em, Xf⟩ := p
    rw [hcore] at h
    dsimp only at h
    by_cases hX : Xf < 4294967296
    · rw [if_pos hX] at h
      simp only [Except.ok.injEq] at h
      exact ⟨em, Xf, rfl, hX, h.symm⟩
    · rw [if_neg hX] at h
      exact absurd h (by simp)

/-- Recovering the decoder's initial state from a successful compress
output yields exactly the encoder's final state register. -/
lemma compress_decodeInit (m : StaticModel) (D out : List Nat)
    (h : compress m D = .ok out) :
    (decodeInit out).map Prod.fst = (compressCore m D L).map Prod.snd := by
  obtain ⟨em, Xf, hcore, hX, rfl⟩ := compress_ok_parts m D out h
  rw [decodeInit_append em Xf hX, hcore]
  rfl

/-! ### Decoder range invariant -/

lemma or_byte_lt (X b : Nat) (hX : X < L) (hb : b < 256) :
    (X <<< 8) ||| b < 256 * L := by
  have hL : L = 8388608 := L_eq
  have h1 : X <<< 8 < 2 ^ 31 := by
    have hs : X <<< 8 = X * 256 := by rw [Nat.shiftLeft_eq]
    omega
  have h2 : b < 2 ^ 31 := by omega
  have h3 := Nat.or_lt_two_pow h1 h2
  omega

lemma decRenorm_range :
    ∀ (stream : List Nat) (X : Nat), (∀ b ∈ stream, b < 256) → X < 256 * L →
      ∀ X1 s1, decRenorm stream X = .ok (X1, s1) →
        (L ≤ X1 ∧ X1 < 256 * L) ∧ ∀ b ∈ s1, b < 256 := by
  intro stream
  induction stream with
  | nil =>
    intro X hb hX X1 s1 h
    rw [decRenorm] at h
    by_cases hXL : X < L
    · rw [if_pos hXL] at h
      exact absurd h (by simp)
    · rw [if_neg hXL] at h
      simp only [Except.ok.injEq, Prod.mk.injEq] at h
      obtain ⟨rfl, rfl⟩ := h
      exact ⟨⟨Nat.le_of_not_lt hXL, hX⟩, hb⟩
  | cons b rest ih =>
    intro X hb hX X1 s1 h
    rw [decRenorm] at h
    by_cases hXL : X < L
    · rw [if_pos hXL] at h
      have hb1 : b < 256 := hb b (by simp)
      have hlt : (X <<< 8) ||| b < 256 * L := or_byte_lt X b hXL hb1
      exact ih ((X <<< 8) ||| b) (fun x hx => hb x (by simp [hx])) hlt X1 s1 h
    · rw [if_neg hXL] at h
      simp only [Except.ok.injEq, Prod.mk.injEq] at h
      obtain ⟨rfl, rfl⟩ := h
      exact ⟨⟨Nat.le_of_not_lt hXL, hX⟩, hb⟩

lemma fillRunGo_forall_le (B : Nat) :
    ∀ (n : Nat) (tbl : List Nat) (cursor v : Nat),
      (∀ x ∈ tbl, x ≤ B) → v ≤ B →
      ∀ x ∈ (fillRunGo n tbl cursor v).1, x ≤ B := by
  intro n
  induction n with
  | zero => intro tbl cursor v ht _ x hx; exact ht x hx
  | succ k ih =>
    intro tbl cursor v ht hv x hx
    simp only [fillRunGo] at hx
    refine ih _ _ _ ?_ hv x hx
    intro y hy
    rcases List.mem_or_eq_of_mem_set hy with h | rfl
    · exact ht y h
    · exact hv

lemma fillRun_forall_le (tbl : List Nat) (v cursor up B : Nat)
    (ht : ∀ x ∈ tbl, x ≤ B) (hv : v ≤ B) :
    ∀ x ∈ (fillRun tbl v cursor up).1, x ≤ B := by
  rw [fillRun]
  exact fillRunGo_forall_le B _ tbl cursor v ht hv

lemma buildTable_forall_le (m : StaticModel) : ∀ x ∈ buildTable m, x ≤ 254 := by
  rw [buildTable]
  have hgen : ∀ (l : List Nat) (acc : List Nat × Nat),
      (∀ x ∈ acc.1, x ≤ 254) → (∀ s ∈ l, s ≤ 255) →
      ∀ x ∈ (l.foldl (fun acc s => fillRun acc.1 (s - 1) acc.2 (m.cdf s)) acc).1, x ≤ 254 := by
    intro l
    induction l with
    | nil => intro acc hacc _ x hx; exact hacc x hx
    | cons s t ih =>
      intro acc hacc hs x hx
      rw [List.foldl_cons] at hx
      refine ih _ ?_ (fun y hy => hs y (by simp [hy])) x hx
      have hs254 : s - 1 ≤ 254 := by
        have := hs s (by simp)
        omega
      exact fillRun_forall_le acc.1 (s - 1) acc.2 (m.cdf s) 254 hacc hs254
  apply hgen
  · intro x hx
    have := List.eq_of_mem_replicate hx
    omega
  · intro s hs
    have := List.mem_range.mp hs
    omega

/-- One decode step of a successful pass maps a state below `256 * L`
to a state in `[L, 256 * L)`, for any well-formed model and any
byte-valued stream. -/
lemma decodeStep_range (m : StaticModel) (hm : goodModel m) (tbl : List Nat)
    (htbl : ∀ x ∈ tbl, x ≤ 254) (X : Nat) (stream : List Nat)
    (hstream : ∀ b ∈ stream, b < 256) (hX : X < 256 * L)
    (s X1 : Nat) (s1 : List Nat)
    (h : decodeStep m tbl X stream = .ok (s, X1, s1)) :
    (L ≤ X1 ∧ X1 < 256 * L) ∧ ∀ b ∈ s1, b < 256 := by
  simp only [decodeStep] at h
  by_cases hf : m.freq (tbl.getD (X &&& MASK) 0) = 0
  · rw [if_pos hf] at h
    exact absurd h (by simp)
  · rw [if_neg hf] at h
    by_cases hcd : m.freq (tbl.getD (X &&& MASK) 0) * (X >>> MODEL_BITS) + (X &&& MASK)
        < m.cdf (tbl.getD (X &&& MASK) 0)
    · rw [if_pos hcd] at h
      exact absurd h (by simp)
    · rw [if_neg hcd] at h
      cases hren : decRenorm stream
          (m.freq (tbl.getD (X &&& MASK) 0) * (X >>> MODEL_BITS) + (X &&& MASK)
            - m.cdf (tbl.getD (X &&& MASK) 0)) with
      | error e =>
        rw [hren] at h
        exact absurd h (by simp)
      | ok p =>
        obtain ⟨X2, s2⟩ := p
        rw [hren] at h
        simp only [Except.ok.injEq, Prod.mk.injEq] at h
        obtain ⟨-, rfl, rfl⟩ := h
        have hsy254 : tbl.getD (X &&& MASK) 0 ≤ 254 := by
          by_cases hlen : (X &&& MASK) < tbl.length
          · exact htbl _ (getD_mem_of_lt tbl _ hlen)
          · rw [List.getD_eq_default _ 0 (Nat.le_of_not_lt hlen)]
            omega
        have hfc : m.freq (tbl.getD (X &&& MASK) 0) + m.cdf (tbl.getD (X &&& MASK) 0) ≤ 4096 := by
          have := hm.2 (tbl.getD (X &&& MASK) 0) (by omega)
          rw [encTotal_eq] at this
          exact this
        have hq : X >>> MODEL_BITS ≤ 524287 := by
          rw [shiftRight12_eq]
          have hL : L = 8388608 := L_eq
          omega
        have hmul : m.freq (tbl.getD (X &&& MASK) 0) * (X >>> MODEL_BITS) ≤ 4096 * 524287 :=
          Nat.mul_le_mul (by omega) hq
        have hmask : X &&& MASK ≤ 4095 := by
          have h1 : X &&& MASK ≤ MASK := Nat.and_le_right
          have h2 : MASK = 4095 := MASK_eq
          omega
        have htlt : m.freq (tbl.getD (X &&& MASK) 0) * (X >>> MODEL_BITS) + (X &&& MASK)
            - m.cdf (tbl.getD (X &&& MASK) 0) < 256 * L := by
          have hL : L = 8388608 := L_eq
          omega
        exact decRenorm_range stream _ hstream htlt X2 s2 hren

/-! ### Concrete models used in witnesses and counterexamples -/

/-- Model built from the one-byte corpus `[97]`: symbol 97 gets the
whole probability mass 4096. -/
def mW : StaticModel :=
  ⟨(List.replicate 256 0).set 97 4096,
    prefixCdf ((List.replicate 256 0).set 97 4096) 0⟩

lemma mW_build : StaticModel.build [97] = .ok mW := rfl

/-- Model built from the one-byte corpus `[255]`: symbol 255 gets the
whole probability mass 4096 and the cdf is identically 0. -/
def m255 : StaticModel :=
  ⟨(List.replicate 256 0).set 255 4096, List.replicate 256 0⟩

/-! ### Claim theorems -/

/-- C1 (code bug): the round-trip identity fails on the code.  For the
one-byte corpus `[255]` (a byte string containing 0xFF), decoding the
encoder's output with the same model and the original length raises
the zero-frequency decode error instead of returning the input: the
symbol-table build of `decompress` writes `s - 1` into slots
`[cdf(s-1), cdf(s))`, so the slots of symbol 255 are never written and
keep their initial value 0, whose frequency is 0 here. -/
theorem roundTrip_fails_on_255 :
    roundTrip [255]
      = .error "Decoding/Symbol Table Error, symbol with 0 frequency found." := by
  rfl

/-- C2 (code bug): the decoder's inverse lookup table violates the
claimed property at symbol 255.  For the model built from `[255]`,
slot 0 lies in `[cdf(255), cdf(255) + freq(255)) = [0, 4096)`, yet
`table[0] = 0 ≠ 255`: the fill loop writes `s - 1` into the slots
below `cdf(s)` and never fills the slots owned by symbol 255. -/
theorem symbolTable_wrong_at_255 :
    StaticModel.build [255] = .ok m255
      ∧ m255.cdf 255 ≤ 0
      ∧ 0 < m255.cdf 255 + m255.freq 255
      ∧ (buildTable m255).getD 0 0 = 0
      ∧ (buildTable m255).getD 0 0 ≠ 255 := by
  exact ⟨rfl, by decide, by decide, rfl, by decide⟩

/-- C3 counterexample: the sum invariant fails.  For the corpus
`[0, 1, 2]` the normalized frequencies sum to 4095, not 4096: each of
the three occurring symbols gets `floor(1 * 4096 / 3) = 1365` from the
final flooring scale. -/
theorem sumFreqs_counterexample :
    (StaticModel.build [0, 1, 2]).map (fun m => m.freqs.sum) = .ok 4095
      ∧ (4095 : Nat) ≠ 4096 := by
  exact ⟨rfl, by decide⟩

/-- C3 amended: for every corpus accepted by Build, the 256 normalized
frequencies of the resulting model sum to at most
`2^MODEL_BITS = 4096` (the flooring final scale can lose up to one
unit per symbol, so exact equality fails in general). -/
theorem sumFreqs_le_4096 (D : List Nat) (M : StaticModel)
    (h : StaticModel.build D = .ok M) : M.freqs.sum ≤ 4096 := by
  obtain ⟨hg, -⟩ := build_ok_parts D M h
  obtain ⟨-, hsum, -⟩ := generate_facts D M.freqs hg
  rw [encTotal_eq] at hsum
  exact hsum

theorem sumFreqs_le_4096_witness : mW.freqs.sum ≤ 4096 :=
  sumFreqs_le_4096 [97] mW mW_build

/-- C4: every byte value occurring at least once in the corpus is
assigned a normalized frequency of at least 1 by the built model: the
redistribution pass leaves every nonzero raw count at least
`total // enc_total + 1`, so the final flooring scale cannot reach 0. -/
theorem freq_coverage (D : List Nat) (M : StaticModel) (v : Nat)
    (h : StaticModel.build D = .ok M) (hv : v ∈ D) (hv256 : v < 256) :
    1 ≤ M.freq v := by
  obtain ⟨hg, -⟩ := build_ok_parts D M h
  obtain ⟨-, -, hpos⟩ := generate_facts D M.freqs hg
  have hc := countFreqs_getD_pos D v hv hv256
  have hp := hpos v hc
  show 1 ≤ M.freqs.getD v 0
  omega

theorem freq_coverage_witness : 1 ≤ mW.freq 97 :=
  freq_coverage [97] mW 97 mW_build (by decide) (by decide)

/-- C5 counterexample: the state register does not stay in
`[L, 256 * L)` at all times during an encode pass.  With the model
built from `[0, 1]` (both frequencies 2048), encoding eight `0`
symbols succeeds; the states at the per-symbol step boundaries climb
from `L = 2^23` to `2^30`, and within the eighth step the downward
renormalization with threshold `H = ((L >> MODEL_BITS) << 8) * f`
takes the state from `2^30` to `2^22 < L` before the encode transform
raises it back into range. -/
theorem stateRange_counterexample :
    ((StaticModel.build [0, 1]).bind
        (fun m => compressStates m (List.replicate 7 0) L))
      = .ok [8388608, 16777216, 33554432, 67108864, 134217728, 268435456,
          536870912, 1073741824]
      ∧ ((StaticModel.build [0, 1]).map
          (fun m => encRenorm 1073741824 (((L >>> MODEL_BITS) <<< 8) * m.freq 0)))
        = .ok ([0], 4194304)
      ∧ 4194304 < L
      ∧ ((StaticModel.build [0, 1]).bind (fun m => compress m (List.replicate 8 0)))
        = .ok [0, 0, 0, 128, 0] := by
  exact ⟨rfl, rfl, by decide, rfl⟩

/-- C5 amended: the state register lies in `[L, 256 * L)` at the
per-symbol step boundaries rather than at all times: (encode) starting
from `X = L`, every state recorded at a step boundary of a successful
encode pass, including the final state, lies in `[L, 256 * L)`;
(decode) the initial state recovered from a successful encode's output
lies in `[L, 256 * L)`, and every successful decode step begun from a
state in `[L, 256 * L)` on a byte-valued stream ends in
`[L, 256 * L)`.  Within a step the renormalization may leave the
interval temporarily (see the counterexample). -/
theorem stateRange_boundaries (m : StaticModel) (hm : goodModel m) :
    (∀ (D states : List Nat),
        compressStates m D L = .ok states → ∀ x ∈ states, L ≤ x ∧ x < 256 * L)
      ∧ (∀ (D out : List Nat), compress m D = .ok out →
          ∀ (X0 : Nat) (rest : List Nat), decodeInit out = .ok (X0, rest) →
            L ≤ X0 ∧ X0 < 256 * L)
      ∧ (∀ (X : Nat) (stream : List Nat) (s X1 : Nat) (s1 : List Nat),
          (∀ b ∈ stream, b < 256) → L ≤ X → X < 256 * L →
          decodeStep m (buildTable m) X stream = .ok (s, X1, s1) →
          L ≤ X1 ∧ X1 < 256 * L) := by
  have hL256 : L < 256 * L := by
    have hL : L = 8388608 := L_eq
    omega
  refine ⟨?_, ?_, ?_⟩
  · intro D states h x hx
    exact compressStates_range m hm D L (Nat.le_refl L) hL256 states h x hx
  · intro D out hout X0 rest hinit
    obtain ⟨em, Xf, hcore, hXf, rfl⟩ := compress_ok_parts m D out hout
    have hr := compressCore_range m hm D L (Nat.le_refl L) hL256 em Xf hcore
    rw [decodeInit_append em Xf hXf] at hinit
    simp only [Except.ok.injEq, Prod.mk.injEq] at hinit
    obtain ⟨rfl, -⟩ := hinit
    exact hr
  · intro X stream s X1 s1 hstream _h1 h2 hstep
    exact (decodeStep_range m hm _ (buildTable_forall_le m) X stream hstream h2
      s X1 s1 hstep).1

theorem stateRange_boundaries_witness : L ≤ L ∧ L < 256 * L :=
  (stateRange_boundaries mW (by decide)).1 [] [L] rfl L (by simp)

/-- C6: Encode raises the zero-frequency error exactly when the input
contains a symbol whose model frequency is 0; in the `Except`
embedding the error case carries no output bytes, so the pass is fatal
with no partial output. -/
theorem encode_error_iff (D0 D : List Nat) (m : StaticModel)
    (hm : StaticModel.build D0 = .ok m) (_hD : ∀ b ∈ D, b < 256) :
    compress m D = .error "Cannot encode symbols with zero frequency"
      ↔ ∃ b ∈ D, m.freq b = 0 := by
  constructor
  · intro h
    by_contra hex
    push_neg at hex
    obtain ⟨em, Xf, hcore⟩ := compressCore_isOk m D L (fun b hb => hex b hb)
    have hgm := goodModel_of_build D0 m hm
    have hL256 : L < 256 * L := by
      have hL : L = 8388608 := L_eq
      omega
    have hr := compressCore_range m hgm D L (Nat.le_refl L) hL256 em Xf hcore
    rw [compress, hcore] at h
    dsimp only at h
    rw [if_pos (by
      have hL : L = 8388608 := L_eq
      omega)] at h
    exact absurd h (by simp)
  · intro hex
    rw [compress, compressCore_err m D L hex]

theorem encode_error_iff_witness :
    compress mW [98] = .error "Cannot encode symbols with zero frequency" :=
  (encode_error_iff [97] [98] mW mW_build (by decide)).mpr ⟨98, by decide, by decide⟩

/-- C7: for every model and input on which Encode succeeds, reversing
the compressed buffer and reading its first 4 bytes as a big-endian
unsigned integer yields exactly the encoder's final state register
(the value appended as 4 little-endian bytes at the end). -/
theorem finalState_recovery (m : StaticModel) (D out : List Nat)
    (h : compress m D = .ok out) :
    (decodeInit out).map Prod.fst = (compressCore m D L).map Prod.snd :=
  compress_decodeInit m D out h

theorem finalState_recovery_witness :
    (decodeInit [0, 0, 128, 0]).map Prod.fst
      = (compressCore mW [97] L).map Prod.snd :=
  finalState_recovery mW [97] [0, 0, 128, 0] rfl

/-- C8: the cdf array of every built model has 256 entries, starts at
0, is the exclusive prefix sum of the frequencies
(`cdf(i+1) = cdf(i) + freq(i)`), and is monotonically non-decreasing. -/
theorem cdf_well_formed (D : List Nat) (M : StaticModel)
    (h : StaticModel.build D = .ok M) :
    M.cdfs.length = 256
      ∧ M.cdf 0 = 0
      ∧ (∀ i < 255, M.cdf (i + 1) = M.cdf i + M.freq i)
      ∧ (∀ i j, i ≤ j → j < 256 → M.cdf i ≤ M.cdf j) := by
  obtain ⟨hg, hcdf⟩ := build_ok_parts D M h
  obtain ⟨hlen, -, -⟩ := generate_facts D M.freqs hg
  have hclen : M.cdfs.length = 256 := by
    rw [hcdf, prefixCdf_length, hlen]
  refine ⟨hclen, ?_, ?_, ?_⟩
  · show M.cdfs.getD 0 0 = 0
    rw [hcdf]
    apply prefixCdf_getD_zero
    intro hnil
    rw [hnil] at hlen
    simp at hlen
  · intro i hi
    show M.cdfs.getD (i + 1) 0 = M.cdfs.getD i 0 + M.freqs.getD i 0
    rw [hcdf]
    exact prefixCdf_getD_succ M.freqs 0 i (by omega)
  · intro i j hij hj
    show M.cdfs.getD i 0 ≤ M.cdfs.getD j 0
    rw [hcdf]
    exact prefixCdf_mono M.freqs 0 i j hij (by omega)

theorem cdf_well_formed_witness :
    mW.cdfs.length = 256 ∧ mW.cdf 0 = 0
      ∧ mW.cdf 43 = mW.cdf 42 + mW.freq 42
      ∧ mW.cdf 7 ≤ mW.cdf 200 := by
  obtain ⟨h1, h2, h3, h4⟩ := cdf_well_formed [97] mW mW_build
  exact ⟨h1, h2, h3 42 (by omega), h4 7 200 (by omega) (by omega)⟩

/-- C9: building a model from the empty byte sequence does not return
a model: the redistribution loop exits immediately with `total = 0`
and the final scaling step divides by zero, so the construction fails
with a division-by-zero error. -/
theorem build_empty_fails :
    StaticModel.build []
      = .error "ZeroDivisionError: integer division or modulo by zero" := by
  rfl

/-- C10: for every built model, encoding the empty sequence emits no
renormalization bytes and returns exactly the 4-byte little-endian
encoding of the initial state `L = 2^23`, and decoding that buffer
with length 0 returns the empty sequence. -/
theorem encode_empty (D : List Nat) (M : StaticModel)
    (_h : StaticModel.build D = .ok M) :
    compress M [] = .ok (le4Bytes L)
      ∧ decompress M (le4Bytes L) 0 = .ok [] := by
  exact ⟨rfl, rfl⟩

theorem encode_empty_witness :
    compress mW [] = .ok (le4Bytes L)
      ∧ decompress mW (le4Bytes L) 0 = .ok [] :=
  encode_empty [97] mW mW_build
